import Mathlib

/-!
Shallow embedding of `craft_planner.py`, a crafting planner built around a
time-bounded best-first search.

States are the Python `State` class: an ordered dictionary from item names to
integer quantities, modelled as an association list in insertion order.
Recipe construction (`make_checker` / `make_effector`), the goal checker, the
heuristic (`make_heuristic`) and the search loop (`search`) are translated
function by function.  The wall-clock budget of the Python loop is modelled by
a fuel parameter counting loop iterations; Python float infinity produced by
the heuristic is modelled by the `HVal` type.
-/

set_option autoImplicit false

namespace CraftPlanner

/-- A crafting state: the ordered `(item, quantity)` pairs of the Python
`State` ordered dictionary, in insertion order. -/
abbrev State := List (String × Int)

/-- Association-list lookup: the value stored at the first occurrence of the
key, mirroring a Python dict lookup (`d[k]` / `k in d`). -/
def alook {α β : Type} [DecidableEq α] : List (α × β) → α → Option β
  | [], _ => none
  | p :: ps, k => if p.1 = k then some p.2 else alook ps k

/-- Association-list update, keeping insertion order like a Python dict:
an existing key keeps its position, a new key is appended at the end. -/
def aput {α β : Type} [DecidableEq α] : List (α × β) → α → β → List (α × β)
  | [], k, v => [(k, v)]
  | p :: ps, k, v => if p.1 = k then (k, v) :: ps else p :: aput ps k v

/-- A crafting rule as read from the dataset: the `Requires`, `Consumes` and
`Produces` dictionaries of a recipe (absent dictionaries are empty lists). -/
structure Rule where
  reqItems : List (String × Int)
  consItems : List (String × Int)
  prodItems : List (String × Int)

/-- The precomputation loop shared by `make_checker` and `make_effector`:
walk the item catalog in order and keep the rule entries whose item is in the
catalog.  Out-of-catalog references in the rule are silently dropped. -/
def restrictTo : List String → List (String × Int) → List (String × Int)
  | [], _ => []
  | c :: cs, xs =>
    match alook xs c with
    | some v => (c, v) :: restrictTo cs xs
    | none => restrictTo cs xs

/-- `make_checker`: precompute the catalog-restricted `Requires` and
`Consumes` tables, then test a state by scanning its items; an item with a
requirement needs quantity at least 1, a consumed item needs at least the
consumption amount. -/
def make_check (cat : List String) (rule : Rule) : State → Bool :=
  let consume := restrictTo cat rule.consItems
  let reqs := restrictTo cat rule.reqItems
  fun state =>
    state.all fun p =>
      (match alook reqs p.1 with
       | some _ => decide (1 ≤ p.2)
       | none => true) &&
      (match alook consume p.1 with
       | some c => decide (c ≤ p.2)
       | none => true)

/-- `make_effector`: precompute the catalog-restricted `Consumes` and
`Produces` tables; the effect maps each inventory entry to quantity minus
consumption plus production (zero when the item is not mentioned). -/
def make_effect (cat : List String) (rule : Rule) : State → State :=
  let consume := restrictTo cat rule.consItems
  let produce := restrictTo cat rule.prodItems
  fun state =>
    state.map fun p =>
      (p.1, p.2 - ((alook consume p.1).getD 0) + ((alook produce p.1).getD 0))

/-- `make_goal_checker`: a state meets the goal when every goal item is held
in at least the required quantity. -/
def make_goal_check (goal : List (String × Int)) : State → Bool :=
  fun state =>
    state.all fun p =>
      match alook goal p.1 with
      | some g => decide (g ≤ p.2)
      | none => true

/-- Python float values flowing through the heuristic and the priority
arithmetic of the search loop: plain integers, the two infinities, and the
not-a-number value produced by `inf - inf`. -/
inductive HVal where
  | val (z : Int)
  | inf
  | ninf
  | nan
  deriving DecidableEq, Repr

namespace HVal

/-- Negation of a Python float. -/
def neg : HVal → HVal
  | val z => val (-z)
  | inf => ninf
  | ninf => inf
  | nan => nan

/-- Addition of Python floats; opposite infinities give `nan`. -/
def add : HVal → HVal → HVal
  | nan, _ => nan
  | _, nan => nan
  | inf, ninf => nan
  | ninf, inf => nan
  | inf, _ => inf
  | _, inf => inf
  | ninf, _ => ninf
  | _, ninf => ninf
  | val a, val b => val (a + b)

/-- Subtraction of Python floats, as addition of the negation. -/
def sub (a b : HVal) : HVal := a.add b.neg

/-- Strict comparison of Python floats; `nan` compares false both ways. -/
def lt : HVal → HVal → Bool
  | val a, val b => decide (a < b)
  | val _, inf => true
  | ninf, val _ => true
  | ninf, inf => true
  | _, _ => false

end HVal

/-- The `tools` list of `make_heuristic`, items capped at a single copy. -/
def toolItems : List String :=
  ["wooden_axe", "wooden_pickaxe", "stone_axe", "stone_pickaxe", "bench", "furnace"]

/-- The final accumulation loop of `get_hue` over the inventory entries in
order: shortfalls of goal items add their cost-weighted deficit, over-stocked
tools and over-stocked (more than 8) non-goal items set the value to
infinity, with `rail` exempt from the over-stock rule inside the goal branch. -/
def hueLoop (goal cost : List (String × Int)) : List (String × Int) → HVal → HVal
  | [], acc => acc
  | (key, amt) :: rest, acc =>
    let acc' :=
      match alook goal key with
      | some g =>
        if amt < g then
          acc.add (HVal.val (match alook cost key with
            | some c => c * (g - amt)
            | none => g - amt))
        else if toolItems.contains key then
          (if 1 < amt then HVal.inf else acc)
        else if 8 < amt then
          (if key = "rail" then acc.add (HVal.val 0) else HVal.inf)
        else acc
      | none =>
        if toolItems.contains key then
          (if 1 < amt then HVal.inf else acc)
        else if 8 < amt then HVal.inf
        else acc
    hueLoop goal cost rest acc'

/-- `make_heuristic`'s `get_hue`: derive the tool-tier unit-cost table from
the inventory, then accumulate over the inventory entries.  Dictionary reads
of absent keys are Python `KeyError`s, modelled by `none`; the reads of
`wooden_axe`, `stone_pickaxe` and `wooden_pickaxe` happen only when the
better tool of their `if`/`elif` chain is absent from the inventory. -/
def getHue (goal : List (String × Int)) (state : State) : Option HVal := do
  let lk := alook state
  let sa ← lk "stone_axe"
  let wood ←
    if 1 ≤ sa then pure (2 : Int)
    else do
      let wa ← lk "wooden_axe"
      pure (if 1 ≤ wa then (4 : Int) else 8)
  let ip ← lk "iron_pickaxe"
  let mine ←
    if 1 ≤ ip then pure ((2 : Int), (2 : Int), (4 : Int))
    else do
      let sp ← lk "stone_pickaxe"
      if 1 ≤ sp then pure ((4 : Int), (4 : Int), (8 : Int))
      else do
        let wp ← lk "wooden_pickaxe"
        pure (if 1 ≤ wp then ((8 : Int), (8 : Int), (16 : Int))
              else ((16 : Int), (16 : Int), (32 : Int)))
  let plankInv ← lk "plank"
  let benchInv ← lk "bench"
  let cobbleInv ← lk "cobble"
  let furnaceInv ← lk "furnace"
  let stickInv ← lk "stick"
  let ingotInv ← lk "ingot"
  let cobbleC := mine.1
  let coalC := mine.2.1
  let oreC := mine.2.2
  let plankC := 1 + (wood + 3) / 4
  let stickC := 1 + (plankC + 1) / 2
  let benchC := 100 + plankC * (4 - plankInv)
  let furnaceC := 100 + benchC * (1 - benchInv) + cobbleC * (8 - cobbleInv)
  let ingotC := 5 + coalC + oreC + furnaceC * (1 - furnaceInv)
  let woodenAxeC := 100 + benchC * (1 - benchInv) + plankC * (3 - plankInv)
    + stickC * (2 - stickInv)
  let stoneAxeC := 100 + benchC * (1 - benchInv) + cobbleC * (3 - cobbleInv)
    + stickC * (2 - stickInv)
  let ironAxeC := 100 + benchC * (1 - benchInv) + ingotC * (3 - ingotInv)
    + stickC * (2 - stickInv)
  let cartC := 1 + benchC * (1 - benchInv) + ingotC * (5 - ingotInv)
  let railC := 1 + benchC * (1 - benchInv) + ingotC * (6 - ingotInv)
  let cost : List (String × Int) :=
    [("wood", wood), ("cobble", cobbleC), ("coal", coalC), ("ore", oreC),
     ("plank", plankC), ("stick", stickC), ("bench", benchC),
     ("furnace", furnaceC), ("ingot", ingotC), ("wooden_axe", woodenAxeC),
     ("wooden_pickaxe", woodenAxeC), ("stone_axe", stoneAxeC),
     ("stone_pickaxe", stoneAxeC), ("iron_axe", ironAxeC),
     ("iron_pickaxe", ironAxeC), ("cart", cartC), ("rail", railC)]
  pure (hueLoop goal cost state (HVal.val 0))

/-- A constructed recipe, the Python `Recipe` namedtuple: a name, the checker
and effector closures, and the time cost used as edge weight. -/
structure RecipeF where
  name : String
  check : State → Bool
  effect : State → State
  cost : Int

/-- `graph(state, all_recipes)`: the `(name, resulting state, cost)` triples
of the recipes whose checker passes, in recipe-list order. -/
def graphF (recipes : List RecipeF) (s : State) : List (String × State × Int) :=
  (recipes.filter fun r => r.check s).map fun r => (r.name, r.effect s, r.cost)

/-- A frontier entry, the Python 4-tuple
`(priority, state, recipe name, edge cost)`. -/
structure Node where
  pri : HVal
  st : State
  name : String
  cost : Int
  deriving DecidableEq, Repr

/-- Lexicographic comparison of the character lists of two strings by code
point, Python's `<` on strings. -/
def strLtAux : List Char → List Char → Bool
  | [], [] => false
  | [], _ :: _ => true
  | _ :: _, [] => false
  | a :: as_, b :: bs =>
    if a.toNat = b.toNat then strLtAux as_ bs else decide (a.toNat < b.toNat)

/-- Python `<` on strings. -/
def strLt (a b : String) : Bool := strLtAux a.data b.data

/-- Comparison of frontier tuples, Python tuple order: priority first, then
the state (compared as its ordered item pairs), then name, then cost. -/
def pairLt (a b : String × Int) : Bool :=
  if a.1 = b.1 then decide (a.2 < b.2) else strLt a.1 b.1

/-- Lexicographic comparison of two states as Python compares the underlying
key/value tuples. -/
def stLt : State → State → Bool
  | [], [] => false
  | [], _ :: _ => true
  | _ :: _, [] => false
  | a :: as_, b :: bs => if a = b then stLt as_ bs else pairLt a b

/-- Python `<` on two frontier tuples. -/
def nodeLt (a b : Node) : Bool :=
  if a.pri = b.pri then
    if a.st = b.st then
      if a.name = b.name then decide (a.cost < b.cost)
      else strLt a.name b.name
    else stLt a.st b.st
  else a.pri.lt b.pri

/-- `heappop`: remove and return the least tuple of the frontier (the heap is
modelled extensionally as the list of its elements). -/
def popMin : List Node → Option (Node × List Node)
  | [] => none
  | n :: ns =>
    match popMin ns with
    | none => some (n, [])
    | some (m, rest) => if nodeLt m n then some (m, n :: rest) else some (n, ns)

/-- Keys of the `distance` dictionary: the code stores the initial 4-tuple
under the tuple itself and every later entry under the resulting `State`, so
the key type is their disjoint union (a tuple never equals a state in
Python). -/
inductive DKey where
  | ofNode (n : Node)
  | ofState (s : State)
  deriving DecidableEq, Repr

/-- The mutable search bookkeeping: the frontier list, the `distance`
dictionary and the `prev` dictionary. -/
structure Config where
  heap : List Node
  dist : List (DKey × HVal)
  prev : List (State × Node)
  deriving Repr

/-- The initialization of `search`: push the start tuple
`(heuristic(start), start, "Start", 0)` and seed `distance` with that tuple
(the tuple itself, not the start state) mapped to 0. -/
def searchInit (hue : State → HVal) (state : State) : Config :=
  let initial : Node := ⟨hue state, state, "Start", 0⟩
  { heap := [initial], dist := [(DKey.ofNode initial, HVal.val 0)], prev := [] }

/-- One relaxation of a successor `(name, state, cost)` triple: the tentative
distance is the popped tuple's priority minus its heuristic plus the edge
cost; on strict improvement (or a missing entry) record distance and
predecessor and push a fresh tuple. -/
def relax (hue : State → HVal) (node : Node) (cfg : Config)
    (nb : String × State × Int) : Config :=
  let dtn := (node.pri.sub (hue node.st)).add (HVal.val nb.2.2)
  let better :=
    match alook cfg.dist (DKey.ofState nb.2.1) with
    | none => true
    | some d => dtn.lt d
  if better then
    let dist' := aput cfg.dist (DKey.ofState nb.2.1) dtn
    let prev' := aput cfg.prev nb.2.1 node
    let newNode : Node := ⟨(hue nb.2.1).add dtn, nb.2.1, nb.1, nb.2.2⟩
    { heap := newNode :: cfg.heap, dist := dist', prev := prev' }
  else cfg

/-- Expansion of a popped node: relax every triple yielded by `graph`. -/
def expandNode (hue : State → HVal) (recipes : List RecipeF) (node : Node)
    (cfg : Config) : Config :=
  (graphF recipes node.st).foldl (relax hue node) cfg

/-- A reported plan step `[cost, recipe name, resulting state]`. -/
structure Step where
  cost : Int
  name : String
  st : State
  deriving DecidableEq, Repr

/-- The reconstruction loop: follow `prev` links from the popped goal node,
collecting `[cost, name, state]` entries; the chain walk is bounded by the
fuel (the caller passes the size of `prev`, enough for any acyclic chain). -/
def reconCore (prev : List (State × Node)) : Node → Nat → List Step
  | node, 0 => [⟨node.cost, node.name, node.st⟩]
  | node, fl + 1 =>
    match alook prev node.st with
    | some p => ⟨node.cost, node.name, node.st⟩ :: reconCore prev p fl
    | none => [⟨node.cost, node.name, node.st⟩]

/-- Path reconstruction: collect the chain goal-first, then reverse it. -/
def reconstructPath (prev : List (State × Node)) (node : Node) : List Step :=
  (reconCore prev node prev.length).reverse

/-- The outcome of one iteration of the search loop. -/
inductive StepOut where
  | finished (p : List Step)
  | cont (c : Config)

/-- One iteration of the `while` body: pop the least frontier tuple (an empty
frontier leaves the configuration unchanged); a popped goal state finishes
with the reconstructed path, otherwise expand the node. -/
def searchStep (isGoal : State → Bool) (hue : State → HVal)
    (recipes : List RecipeF) (cfg : Config) : StepOut :=
  match popMin cfg.heap with
  | none => StepOut.cont cfg
  | some (node, heap') =>
    if isGoal node.st then StepOut.finished (reconstructPath cfg.prev node)
    else StepOut.cont (expandNode hue recipes node { cfg with heap := heap' })

/-- The search outcome: a found path, or expiry of the time budget. -/
inductive SearchResult where
  | found (p : List Step)
  | timeExpired
  deriving DecidableEq, Repr

/-- The `while time() - start_time < limit` loop, with the wall-clock budget
modelled as fuel counting loop iterations. -/
def searchLoop (isGoal : State → Bool) (hue : State → HVal)
    (recipes : List RecipeF) : Nat → Config → SearchResult
  | 0, _ => SearchResult.timeExpired
  | fl + 1, cfg =>
    match searchStep isGoal hue recipes cfg with
    | StepOut.finished p => SearchResult.found p
    | StepOut.cont c => searchLoop isGoal hue recipes fl c

/-- `search(state, is_goal, limit, get_hue, all_recipes)` as a structured
outcome. -/
def search (state : State) (isGoal : State → Bool) (limit : Nat)
    (hue : State → HVal) (recipes : List RecipeF) : SearchResult :=
  searchLoop isGoal hue recipes limit (searchInit hue state)

/-- The value the Python function actually returns: the found path, or the
empty list when the budget expires. -/
def searchList (state : State) (isGoal : State → Bool) (limit : Nat)
    (hue : State → HVal) (recipes : List RecipeF) : List Step :=
  match search state isGoal limit hue recipes with
  | SearchResult.found p => p
  | SearchResult.timeExpired => []

/-- Replay a path's steps from a state by looking up each step's recorded
recipe name and applying that recipe's effect; follows the spec's wording of
path validity (each step's recorded state must be reproduced exactly). -/
def replaySteps (recipes : List RecipeF) : State → List Step → Bool
  | _, [] => true
  | s, e :: es =>
    match recipes.find? (fun r => r.name = e.name) with
    | some r =>
      let s2 := r.effect s
      decide (s2 = e.st) && replaySteps recipes s2 es
    | none => false

/-- The spec's path-validity property for a returned path: the first entry is
the start pseudo-step carrying the initial state, replaying the named recipes
from it reproduces every recorded state, and the final state satisfies the
goal predicate. -/
def pathReplayValid (recipes : List RecipeF) (start : State)
    (isGoal : State → Bool) : List Step → Bool
  | [] => false
  | e0 :: rest =>
    decide (e0.st = start) && replaySteps recipes e0.st rest &&
      (match (e0 :: rest).getLast? with
       | some e => isGoal e.st
       | none => false)

/-- The Python `State.__hash__`, `hash(tuple(self.items()))`: a hash computed
from the ordered item pairs (any fixed function of that tuple models it). -/
def stateHash (s : State) : Nat :=
  s.foldl (fun h p => h * 1000003 + p.1.length * 7 + p.2.natAbs) 5381

/-- The eleven item names hardcoded in `get_hue`'s inventory reads. -/
def hueItems : List String :=
  ["stone_axe", "wooden_axe", "iron_pickaxe", "stone_pickaxe", "wooden_pickaxe",
   "plank", "stick", "bench", "cobble", "furnace", "ingot"]

/-- The eight item names `get_hue` reads on every execution path; the other
three (`wooden_axe`, `stone_pickaxe`, `wooden_pickaxe`) are read only when
the better tool of their `if`/`elif` chain is not held. -/
def uncondHueItems : List String :=
  ["stone_axe", "iron_pickaxe", "plank", "bench", "cobble", "furnace",
   "stick", "ingot"]

/-- Two consecutive plan steps are related when some recipe of the list is
applicable in the first step's state and transforms it into the second
step's state. -/
def stepRel (recipes : List RecipeF) (a b : Step) : Prop :=
  ∃ r ∈ recipes, r.check a.st = true ∧ r.effect a.st = b.st

/-- Invariant of the `prev` dictionary: every recorded predecessor pair was
produced by applying some applicable recipe to the predecessor's state. -/
def PrevOK (recipes : List RecipeF) (prev : List (State × Node)) : Prop :=
  ∀ q ∈ prev, ∃ r ∈ recipes, r.check q.2.st = true ∧ r.effect q.2.st = q.1

/-! ### Concrete inputs used to evaluate the code -/

/-- A one-item state over the catalog `["p"]` holding `n` copies of `p`. -/
def pSt (n : Int) : State := [("p", n)]

/-- A recipe effect adding `n` copies of every held item. -/
def addP (n : Int) : State → State := fun s => s.map fun q => (q.1, q.2 + n)

/-- Four recipes over the catalog `["p"]`: the goal state `pSt 3` is
reachable both via `A` from `pSt 1` (edge cost 10) and via `R1`, `R2`, `B`
one step at a time (edge cost 1 each). -/
def cxRecipes : List RecipeF :=
  [⟨"R1", fun s => decide (s = pSt 0), addP 1, 1⟩,
   ⟨"R2", fun s => decide (s = pSt 1), addP 1, 1⟩,
   ⟨"A", fun s => decide (s = pSt 1), addP 2, 10⟩,
   ⟨"B", fun s => decide (s = pSt 2), addP 1, 1⟩]

/-- A heuristic using the infinite pruning sentinel on the goal state and 0
elsewhere; it is non-negative-or-infinite as the design requires. -/
def cxHue : State → HVal := fun s => if s = pSt 3 then HVal.inf else HVal.val 0

/-- The goal predicate of the stale-name scenario: exactly the state
`pSt 3`. -/
def cxGoal : State → Bool := fun s => decide (s = pSt 3)

/-- The path the search returns in the stale-name scenario. -/
def cxPath : List Step :=
  [⟨0, "Start", pSt 0⟩, ⟨1, "R1", pSt 1⟩, ⟨1, "R2", pSt 2⟩, ⟨10, "A", pSt 3⟩]

/-- A single recipe applicable everywhere whose effect is the identity, with
edge cost 5: its successor state equals its parent state. -/
def noopRecipes : List RecipeF := [⟨"noop", fun _ => true, id, 5⟩]

/-- The constantly-zero heuristic. -/
def zeroHue : State → HVal := fun _ => HVal.val 0

/-- A rule consuming an item `phantom` that is outside the catalog
`["wood"]`, and producing the catalog item `wood`. -/
def phantomRule : Rule := ⟨[], [("phantom", 1)], [("wood", 1)]⟩

/-- A goal asking for 1000 planks and one bench. -/
def negGoal : List (String × Int) := [("plank", 1000), ("bench", 1)]

/-- A state over the eleven heuristic items holding 999 planks and nothing
else. -/
def negState : State :=
  [("stone_axe", 0), ("wooden_axe", 0), ("iron_pickaxe", 0), ("stone_pickaxe", 0),
   ("wooden_pickaxe", 0), ("plank", 999), ("stick", 0), ("bench", 0),
   ("cobble", 0), ("furnace", 0), ("ingot", 0)]

/-- A state holding a stone axe and an iron pickaxe, with an entry for every
heuristic item except `wooden_axe`. -/
def noWoodenAxeState : State :=
  [("stone_axe", 1), ("iron_pickaxe", 1), ("stone_pickaxe", 0),
   ("wooden_pickaxe", 0), ("plank", 0), ("stick", 0), ("bench", 0),
   ("cobble", 0), ("furnace", 0), ("ingot", 0)]

/-- The empty inventory over the eleven heuristic items. -/
def elevenZeroState : State := hueItems.map fun i => (i, 0)

/-! ### Lemmas about the association-list primitives -/

theorem alook_mem {α β : Type} [DecidableEq α] {xs : List (α × β)} {k : α} {v : β}
    (h : alook xs k = some v) : (k, v) ∈ xs := by
  induction xs with
  | nil => simp [alook] at h
  | cons p ps ih =>
    by_cases hk : p.1 = k
    · simp [alook, hk] at h
      subst hk h
      exact List.mem_cons_self _ _
    · simp [alook, hk] at h
      exact List.mem_cons_of_mem _ (ih h)

theorem mem_alook {α β : Type} [DecidableEq α] {xs : List (α × β)} {k : α} {v : β}
    (h : (k, v) ∈ xs) (hnd : (xs.map Prod.fst).Nodup) : alook xs k = some v := by
  induction xs with
  | nil => simp at h
  | cons p ps ih =>
    simp only [List.map_cons, List.nodup_cons] at hnd
    rcases List.mem_cons.mp h with h1 | h1
    · subst h1
      simp [alook]
    · have hk : p.1 ≠ k := by
        intro hc
        exact hnd.1 (hc ▸ (List.mem_map.mpr ⟨(k, v), h1, rfl⟩))
      simp [alook, hk]
      exact ih h1 hnd.2

theorem alook_none_iff {α β : Type} [DecidableEq α] {xs : List (α × β)} {k : α} :
    alook xs k = none ↔ k ∉ xs.map Prod.fst := by
  induction xs with
  | nil => simp [alook]
  | cons p ps ih =>
    by_cases hk : p.1 = k
    · simp [alook, hk]
    · simp [alook, hk, ih, Ne.symm hk]

theorem alook_isSome_iff {α β : Type} [DecidableEq α] {xs : List (α × β)} {k : α} :
    (alook xs k).isSome = true ↔ k ∈ xs.map Prod.fst := by
  rcases h : alook xs k with _ | v
  · simpa [h] using (alook_none_iff.mp h)
  · simp only [h, Option.isSome_some, true_iff]
    exact List.mem_map.mpr ⟨(k, v), alook_mem h, rfl⟩

theorem aput_mem {α β : Type} [DecidableEq α] {xs : List (α × β)} {k : α} {v : β}
    {q : α × β} (h : q ∈ aput xs k v) : q = (k, v) ∨ q ∈ xs := by
  induction xs with
  | nil => simpa [aput] using h
  | cons p ps ih =>
    by_cases hk : p.1 = k
    · simp [aput, hk] at h
      rcases h with h | h
      · exact Or.inl h
      · exact Or.inr (List.mem_cons_of_mem _ h)
    · simp [aput, hk] at h
      rcases h with h | h
      · exact Or.inr (List.mem_cons.mpr (Or.inl h))
      · rcases ih h with h1 | h1
        · exact Or.inl h1
        · exact Or.inr (List.mem_cons_of_mem _ h1)

theorem restrictTo_mem {cat : List String} {xs : List (String × Int)}
    {q : String × Int} (h : q ∈ restrictTo cat xs) :
    alook xs q.1 = some q.2 ∧ q.1 ∈ cat := by
  induction cat with
  | nil => simp [restrictTo] at h
  | cons c cs ih =>
    rcases hv : alook xs c with _ | v
    · simp only [restrictTo, hv] at h
      rcases ih h with ⟨h1, h2⟩
      exact ⟨h1, List.mem_cons_of_mem _ h2⟩
    · simp only [restrictTo, hv] at h
      rcases List.mem_cons.mp h with h1 | h1
      · subst h1
        exact ⟨hv, List.mem_cons_self _ _⟩
      · rcases ih h1 with ⟨h2, h3⟩
        exact ⟨h2, List.mem_cons_of_mem _ h3⟩

theorem alook_restrictTo {cat : List String} {xs : List (String × Int)} {i : String}
    (hnd : cat.Nodup) :
    alook (restrictTo cat xs) i = if i ∈ cat then alook xs i else none := by
  induction cat with
  | nil => simp [restrictTo, alook]
  | cons c cs ih =>
    simp only [List.nodup_cons] at hnd
    by_cases hic : i = c
    · subst hic
      rcases hv : alook xs i with _ | v
      · simp only [restrictTo, hv]
        rw [ih hnd.2]
        simp [hnd.1, hv]
      · simp only [restrictTo, hv]
        simp [alook]
    · rcases hv : alook xs c with _ | v
      · simp only [restrictTo, hv]
        rw [ih hnd.2]
        simp [hic, Ne.symm hic]
      · simp only [restrictTo, hv]
        rw [alook]
        simp only [Ne.symm hic, if_false]
        rw [ih hnd.2]
        simp [hic]

theorem alook_map {β : Type} (f : String → Int → β) (xs : State) (k : String) :
    alook (xs.map fun p => (p.1, f p.1 p.2)) k = (alook xs k).map (f k) := by
  induction xs with
  | nil => simp [alook]
  | cons p ps ih =>
    by_cases hk : p.1 = k
    · subst hk
      simp [alook]
    · simp [alook, hk, ih]

theorem alook_filter_mem {cat : List String} {xs : List (String × Int)} {c : String}
    (hc : c ∈ cat) :
    alook (xs.filter fun p => decide (p.1 ∈ cat)) c = alook xs c := by
  induction xs with
  | nil => simp
  | cons p ps ih =>
    by_cases hp : p.1 ∈ cat
    · rw [List.filter_cons_of_pos (by simpa using hp)]
      by_cases hpc : p.1 = c
      · simp [alook, hpc]
      · simp [alook, hpc, ih]
    · have hpc : p.1 ≠ c := fun h => hp (h ▸ hc)
      rw [List.filter_cons_of_neg (by simpa using hp)]
      rw [alook, if_neg hpc]
      exact ih

theorem restrictTo_filter (cat : List String) (xs : List (String × Int)) :
    ∀ ys : List String, (∀ c ∈ ys, c ∈ cat) →
    restrictTo ys (xs.filter fun p => decide (p.1 ∈ cat)) = restrictTo ys xs := by
  intro ys
  induction ys with
  | nil => intro _; rfl
  | cons c cs ih =>
    intro h
    have hc : c ∈ cat := h c (List.mem_cons_self _ _)
    rw [restrictTo, restrictTo, alook_filter_mem hc,
      ih (fun c hcs => h c (List.mem_cons_of_mem _ hcs))]

theorem state_ext_of_lookups (cat : List String) :
    ∀ s1 s2 : State, s1.map Prod.fst = cat → s2.map Prod.fst = cat → cat.Nodup →
      (∀ i ∈ cat, alook s1 i = alook s2 i) → s1 = s2 := by
  induction cat with
  | nil =>
    intro s1 s2 h1 h2 _ _
    rw [List.map_eq_nil_iff] at h1 h2
    rw [h1, h2]
  | cons c cs ih =>
    intro s1 s2 h1 h2 hnd hl
    rcases s1 with _ | ⟨p, t1⟩
    · simp at h1
    rcases s2 with _ | ⟨q, t2⟩
    · simp at h2
    simp only [List.map_cons, List.cons.injEq] at h1 h2
    simp only [List.nodup_cons] at hnd
    have hp1 : p.1 = c := h1.1
    have hq1 : q.1 = c := h2.1
    have hcv : alook (p :: t1) c = alook (q :: t2) c := hl c (List.mem_cons_self _ _)
    rw [alook, alook, if_pos hp1, if_pos hq1] at hcv
    have hpq : p = q := Prod.ext (hp1.trans hq1.symm) (Option.some_inj.mp hcv)
    have ht : t1 = t2 := by
      refine ih t1 t2 h1.2 h2.2 hnd.2 ?_
      intro i hi
      have hic : p.1 ≠ i := by
        rw [hp1]
        intro hci
        exact hnd.1 (hci ▸ hi)
      have := hl i (List.mem_cons_of_mem _ hi)
      rwa [alook, alook, if_neg hic, if_neg (hpq ▸ hic)] at this
    rw [hpq, ht]

/-! ### Claim theorems -/

/-- C4: for every recipe whose references lie in the catalog and every state
containing every catalog item, the checker returned by `make_checker` returns
true if and only if every required item is held with quantity at least 1 and
every consumed item is held with quantity at least the consumption amount;
unmentioned items impose no constraint. -/
theorem make_check_iff (cat : List String) (rule : Rule) (state : State)
    (hcat : cat.Nodup) (hsk : (state.map Prod.fst).Nodup)
    (hrc : ∀ p ∈ rule.reqItems, p.1 ∈ cat) (hcc : ∀ p ∈ rule.consItems, p.1 ∈ cat)
    (hall : ∀ i ∈ cat, i ∈ state.map Prod.fst)
    (hrn : (rule.reqItems.map Prod.fst).Nodup)
    (hcn : (rule.consItems.map Prod.fst).Nodup) :
    make_check cat rule state = true ↔
      ((∀ p ∈ rule.reqItems, ∃ a, alook state p.1 = some a ∧ 1 ≤ a) ∧
       (∀ p ∈ rule.consItems, ∃ a, alook state p.1 = some a ∧ p.2 ≤ a)) := by
  simp only [make_check, List.all_eq_true, Bool.and_eq_true]
  constructor
  · intro h
    constructor
    · intro p hp
      obtain ⟨q, hq, hqe⟩ := List.mem_map.mp (hall _ (hrc p hp))
      have hl : alook state p.1 = some q.2 := by
        rw [← hqe]
        exact mem_alook (show (q.1, q.2) ∈ state from hq) hsk
      refine ⟨q.2, hl, ?_⟩
      have h1 := (h q hq).1
      rw [alook_restrictTo hcat, hqe, if_pos (hrc p hp), mem_alook hp hrn] at h1
      exact of_decide_eq_true h1
    · intro p hp
      obtain ⟨q, hq, hqe⟩ := List.mem_map.mp (hall _ (hcc p hp))
      have hl : alook state p.1 = some q.2 := by
        rw [← hqe]
        exact mem_alook (show (q.1, q.2) ∈ state from hq) hsk
      refine ⟨q.2, hl, ?_⟩
      have h2 := (h q hq).2
      rw [alook_restrictTo hcat, hqe, if_pos (hcc p hp), mem_alook hp hcn] at h2
      exact of_decide_eq_true h2
  · rintro ⟨hreq, hcon⟩ q hq
    constructor
    · rcases e : alook (restrictTo cat rule.reqItems) q.1 with _ | v
      · simp
      · have hm : (q.1, v) ∈ rule.reqItems :=
          alook_mem (restrictTo_mem (alook_mem e)).1
        obtain ⟨a, ha, h1a⟩ := hreq (q.1, v) hm
        have haq : a = q.2 := by
          have := mem_alook (show (q.1, q.2) ∈ state from hq) hsk
          rw [this] at ha
          exact (Option.some_inj.mp ha).symm
        simpa using haq ▸ h1a
    · rcases e : alook (restrictTo cat rule.consItems) q.1 with _ | v
      · simp
      · have hrm := restrictTo_mem (alook_mem e)
        have hm : (q.1, v) ∈ rule.consItems := alook_mem hrm.1
        obtain ⟨a, ha, h1a⟩ := hcon (q.1, v) hm
        have haq : a = q.2 := by
          have := mem_alook (show (q.1, q.2) ∈ state from hq) hsk
          rw [this] at ha
          exact (Option.some_inj.mp ha).symm
        simpa using haq ▸ h1a

/-- Witness for C4: a concrete catalog, recipe and state on which the iff is
evaluated. -/
theorem make_check_iff_witness :
    make_check ["w", "q"] ⟨[("w", 1)], [("q", 2)], []⟩ [("w", 1), ("q", 3)] = true ↔
      ((∀ p ∈ [(("w" : String), (1 : Int))],
          ∃ a, alook [(("w" : String), (1 : Int)), ("q", 3)] p.1 = some a ∧ 1 ≤ a) ∧
       (∀ p ∈ [(("q" : String), (2 : Int))],
          ∃ a, alook [(("w" : String), (1 : Int)), ("q", 3)] p.1 = some a ∧ p.2 ≤ a)) :=
  make_check_iff ["w", "q"] ⟨[("w", 1)], [("q", 2)], []⟩ [("w", 1), ("q", 3)]
    (by decide) (by decide) (by decide) (by decide) (by decide) (by decide) (by decide)

/-- C5: for every recipe whose references lie in the catalog and every state
satisfying the recipe's predicate, the effector returned by `make_effector`
returns a state with the same items in the same order in which every held
item's quantity is decreased by its consumption amount and increased by its
production amount (zero when the recipe does not mention it); being a pure
function of the input, it leaves the input state unchanged. -/
theorem make_effect_spec (cat : List String) (rule : Rule) (state : State)
    (hcat : cat.Nodup)
    (hck : make_check cat rule state = true)
    (hcc : ∀ p ∈ rule.consItems, p.1 ∈ cat)
    (hpc : ∀ p ∈ rule.prodItems, p.1 ∈ cat) :
    ((make_effect cat rule state).map Prod.fst = state.map Prod.fst) ∧
    (∀ n a, alook state n = some a →
      alook (make_effect cat rule state) n =
        some (a - ((alook rule.consItems n).getD 0)
                + ((alook rule.prodItems n).getD 0))) := by
  constructor
  · simp [make_effect, List.map_map, Function.comp]
  · intro n a ha
    have hc : alook (restrictTo cat rule.consItems) n = alook rule.consItems n := by
      rw [alook_restrictTo hcat]
      by_cases hn : n ∈ cat
      · rw [if_pos hn]
      · rw [if_neg hn]
        rcases e : alook rule.consItems n with _ | v
        · rfl
        · exact absurd (hcc _ (alook_mem e)) hn
    have hp : alook (restrictTo cat rule.prodItems) n = alook rule.prodItems n := by
      rw [alook_restrictTo hcat]
      by_cases hn : n ∈ cat
      · rw [if_pos hn]
      · rw [if_neg hn]
        rcases e : alook rule.prodItems n with _ | v
        · rfl
        · exact absurd (hpc _ (alook_mem e)) hn
    simp only [make_effect]
    rw [alook_map (fun i z =>
      z - ((alook (restrictTo cat rule.consItems) i).getD 0)
        + ((alook (restrictTo cat rule.prodItems) i).getD 0)) state n, ha]
    simp [hc, hp]

/-- Witness for C5: the effect of a recipe consuming one `w` and producing
four `q` on the state holding five `w`. -/
theorem make_effect_spec_witness :
    ((make_effect ["w", "q"] ⟨[], [("w", 1)], [("q", 4)]⟩
        [("w", 5), ("q", 0)]).map Prod.fst =
      ([("w", (5 : Int)), ("q", 0)] : State).map Prod.fst) ∧
    (∀ n a, alook ([("w", (5 : Int)), ("q", 0)] : State) n = some a →
      alook (make_effect ["w", "q"] ⟨[], [("w", 1)], [("q", 4)]⟩
          [("w", 5), ("q", 0)]) n =
        some (a - ((alook [(("w" : String), (1 : Int))] n).getD 0)
                + ((alook [(("q" : String), (4 : Int))] n).getD 0))) :=
  make_effect_spec ["w", "q"] ⟨[], [("w", 1)], [("q", 4)]⟩ [("w", 5), ("q", 0)]
    (by decide) (by decide) (by decide) (by decide)

/-- C6: applying a recipe's effect to a state with non-negative quantities
that satisfies the recipe's predicate leaves no negative quantity, for
recipes with non-negative production amounts as the data model prescribes. -/
theorem make_effect_nonneg (cat : List String) (rule : Rule) (state : State)
    (hnn : ∀ p ∈ state, 0 ≤ p.2)
    (hck : make_check cat rule state = true)
    (hpp : ∀ p ∈ rule.prodItems, 0 ≤ p.2) :
    ∀ p ∈ make_effect cat rule state, 0 ≤ p.2 := by
  intro p hp
  simp only [make_effect, List.mem_map] at hp
  obtain ⟨q, hq, rfl⟩ := hp
  simp only [make_check, List.all_eq_true, Bool.and_eq_true] at hck
  have h2 := (hck q hq).2
  have hd : 0 ≤ (alook (restrictTo cat rule.prodItems) q.1).getD 0 := by
    rcases e : alook (restrictTo cat rule.prodItems) q.1 with _ | v
    · simp
    · have hm : (q.1, v) ∈ rule.prodItems := alook_mem (restrictTo_mem (alook_mem e)).1
      simpa using hpp _ hm
  rcases e : alook (restrictTo cat rule.consItems) q.1 with _ | c
  · rw [e] at h2
    have := hnn q hq
    simp only [e, Option.getD_none]
    omega
  · rw [e] at h2
    have hcle : c ≤ q.2 := of_decide_eq_true h2
    simp only [e, Option.getD_some]
    omega

/-- Witness for C6: the concrete effect application of the C5 witness leaves
the `w` entry, consumed once from five, non-negative. -/
theorem make_effect_nonneg_witness :
    0 ≤ ((("w", (4 : Int)) : String × Int)).2 :=
  make_effect_nonneg ["w", "q"] ⟨[], [("w", 1)], [("q", 4)]⟩ [("w", 5), ("q", 0)]
    (by decide) (by decide) (by decide) ("w", 4) (by decide)

/-- C7: two states built over the same catalog (every catalog item present,
in catalog order, as the `State` invariant guarantees) with identical
quantities for every catalog item are equal and hash identically; two such
states differing in some item's quantity are unequal. -/
theorem state_eq_and_hash (cat : List String) (s1 s2 : State)
    (h1 : s1.map Prod.fst = cat) (h2 : s2.map Prod.fst = cat) (hcat : cat.Nodup) :
    ((∀ i ∈ cat, alook s1 i = alook s2 i) →
      s1 = s2 ∧ stateHash s1 = stateHash s2) ∧
    ((∃ i ∈ cat, alook s1 i ≠ alook s2 i) → s1 ≠ s2) := by
  constructor
  · intro hl
    have he : s1 = s2 := state_ext_of_lookups cat s1 s2 h1 h2 hcat hl
    exact ⟨he, congrArg stateHash he⟩
  · rintro ⟨i, _, hne⟩ rfl
    exact hne rfl

/-- Witness for C7: two concretely constructed two-item states with the same
quantities. -/
theorem state_eq_and_hash_witness :
    ([("w", (3 : Int)), ("q", 0)] : State) = [("w", 3), ("q", 0)] ∧
      stateHash [("w", 3), ("q", 0)] = stateHash [("w", 3), ("q", 0)] :=
  (state_eq_and_hash ["w", "q"] [("w", 3), ("q", 0)] [("w", 3), ("q", 0)]
    (by decide) (by decide) (by decide)).1 (by decide)

/-- C8 counterexample: the rule consuming the out-of-catalog item `phantom`
is not rejected at construction time; the precomputed consume table is empty,
and the constructed checker accepts a state holding no `phantom` at all, so
the malformed reference silently drops out of the search. -/
theorem phantom_rule_not_rejected :
    make_check ["wood"] phantomRule [("wood", 0)] = true ∧
      restrictTo ["wood"] phantomRule.consItems = [] := by
  exact ⟨rfl, rfl⟩

/-- C8 amended: recipe construction silently restricts `Requires`,
`Consumes` and `Produces` to catalog items — filtering out-of-catalog
references from a rule changes neither its checker nor its effector. -/
theorem out_of_catalog_refs_dropped (cat : List String) (rule : Rule) :
    make_check cat ⟨rule.reqItems.filter fun p => decide (p.1 ∈ cat),
                    rule.consItems.filter fun p => decide (p.1 ∈ cat),
                    rule.prodItems.filter fun p => decide (p.1 ∈ cat)⟩ =
      make_check cat rule ∧
    make_effect cat ⟨rule.reqItems.filter fun p => decide (p.1 ∈ cat),
                     rule.consItems.filter fun p => decide (p.1 ∈ cat),
                     rule.prodItems.filter fun p => decide (p.1 ∈ cat)⟩ =
      make_effect cat rule := by
  have hself : ∀ c ∈ cat, c ∈ cat := fun _ h => h
  constructor
  · simp only [make_check]
    rw [restrictTo_filter cat rule.consItems cat hself,
      restrictTo_filter cat rule.reqItems cat hself]
  · simp only [make_effect]
    rw [restrictTo_filter cat rule.consItems cat hself,
      restrictTo_filter cat rule.prodItems cat hself]

/-- C2: evaluating `get_hue` for the goal `{plank: 1000, bench: 1}` on the
state holding 999 planks returns the negative finite value -2882: the bench
term `100 + cost(plank) * (4 - 999)` is negative and no pruning rule fires,
contradicting the design contract that the heuristic is non-negative or the
infinite sentinel. -/
theorem heuristic_negative_value :
    getHue negGoal negState = some (HVal.val (-2882)) ∧ ((-2882 : Int) < 0) := by
  exact ⟨rfl, by decide⟩

/-- C3: `search` seeds the `distance` dictionary with the initial 4-tuple as
key, not with the start `State`, so looking up the start state right after
initialization finds nothing; expanding the start node over a no-op recipe of
cost 5 therefore treats the start-equal successor as unvisited, records
distance 5 for it and pushes it, instead of comparing 5 against the seeded 0. -/
theorem distance_seeded_with_tuple_not_state :
    alook (searchInit zeroHue (pSt 0)).dist (DKey.ofState (pSt 0)) = none ∧
    searchStep (fun _ => false) zeroHue noopRecipes (searchInit zeroHue (pSt 0)) =
      StepOut.cont
        { heap := [⟨HVal.val 5, pSt 0, "noop", 5⟩],
          dist := [(DKey.ofNode ⟨HVal.val 0, pSt 0, "Start", 0⟩, HVal.val 0),
                   (DKey.ofState (pSt 0), HVal.val 5)],
          prev := [(pSt 0, ⟨HVal.val 0, pSt 0, "Start", 0⟩)] } := by
  exact ⟨rfl, rfl⟩

/-- C10 counterexample: on a state lacking the key `wooden_axe` but holding a
stone axe (and an iron pickaxe), `get_hue` never reads the missing key and
returns a value rather than raising a lookup error. -/
theorem heuristic_total_without_wooden_axe :
    ("wooden_axe" ∈ hueItems ∧ alook noWoodenAxeState "wooden_axe" = none) ∧
      getHue [] noWoodenAxeState = some (HVal.val 0) := by
  exact ⟨⟨by decide, rfl⟩, rfl⟩

theorem isSome_of_bind {α β : Type} {a : Option α} {f : α → Option β}
    (h : (a.bind f).isSome = true) : ∃ x, a = some x ∧ (f x).isSome = true := by
  cases a with
  | none => simp at h
  | some x => exact ⟨x, rfl, by simpa using h⟩

set_option maxHeartbeats 2000000 in
/-- C10 amended: `get_hue` is defined exactly when the eight unconditionally
read items are present and each short-circuited item is present whenever its
read is reached — `wooden_axe` when the held `stone_axe` count is below 1,
`stone_pickaxe` when the held `iron_pickaxe` count is below 1, and
`wooden_pickaxe` when additionally the held `stone_pickaxe` count is below 1.
In particular a state lacking any of the eight always raises a lookup error,
a state lacking only short-circuited keys while holding the better tool does
not raise, and a state holding all eleven keys is always defined. -/
theorem heuristic_defined_iff_keys (goal : List (String × Int)) (state : State) :
    (getHue goal state).isSome = true ↔
      ((∀ k ∈ uncondHueItems, (alook state k).isSome = true) ∧
       (∀ sa, alook state "stone_axe" = some sa → sa < 1 →
         (alook state "wooden_axe").isSome = true) ∧
       (∀ ip, alook state "iron_pickaxe" = some ip → ip < 1 →
         (alook state "stone_pickaxe").isSome = true ∧
         (∀ sp, alook state "stone_pickaxe" = some sp → sp < 1 →
           (alook state "wooden_pickaxe").isSome = true))) := by
  constructor
  · intro h
    simp only [getHue, Option.bind_eq_bind, Option.pure_def] at h
    obtain ⟨sa, hsa, h⟩ := isSome_of_bind h
    by_cases c1 : (1 : Int) ≤ sa
    · rw [if_pos c1] at h
      simp only [Option.some_bind] at h
      obtain ⟨ip, hip, h⟩ := isSome_of_bind h
      by_cases c3 : (1 : Int) ≤ ip
      · rw [if_pos c3] at h
        obtain ⟨v6, e6, h⟩ := isSome_of_bind h
        obtain ⟨v8, e8, h⟩ := isSome_of_bind h
        obtain ⟨v9, e9, h⟩ := isSome_of_bind h
        obtain ⟨v10, e10, h⟩ := isSome_of_bind h
        obtain ⟨v7, e7, h⟩ := isSome_of_bind h
        obtain ⟨v11, e11, h⟩ := isSome_of_bind h
        clear h
        refine ⟨?_, ?_, ?_⟩
        · intro k hk
          simp only [uncondHueItems, List.mem_cons, List.not_mem_nil, or_false] at hk
          rcases hk with rfl | rfl | rfl | rfl | rfl | rfl | rfl | rfl <;>
            simp [hsa, hip, e6, e7, e8, e9, e10, e11]
        · intro sa' hsa' hlt
          rw [hsa] at hsa'
          injection hsa' with hsa'
          subst hsa'
          exact absurd c1 (by omega)
        · intro ip' hip' hlt
          rw [hip] at hip'
          injection hip' with hip'
          subst hip'
          exact absurd c3 (by omega)
      · rw [if_neg c3] at h
        obtain ⟨sp, esp, h⟩ := isSome_of_bind h
        by_cases c4 : (1 : Int) ≤ sp
        · rw [if_pos c4] at h
          obtain ⟨v6, e6, h⟩ := isSome_of_bind h
          obtain ⟨v8, e8, h⟩ := isSome_of_bind h
          obtain ⟨v9, e9, h⟩ := isSome_of_bind h
          obtain ⟨v10, e10, h⟩ := isSome_of_bind h
          obtain ⟨v7, e7, h⟩ := isSome_of_bind h
          obtain ⟨v11, e11, h⟩ := isSome_of_bind h
          clear h
          refine ⟨?_, ?_, ?_⟩
          · intro k hk
            simp only [uncondHueItems, List.mem_cons, List.not_mem_nil, or_false] at hk
            rcases hk with rfl | rfl | rfl | rfl | rfl | rfl | rfl | rfl <;>
              simp [hsa, hip, e6, e7, e8, e9, e10, e11]
          · intro sa' hsa' hlt
            rw [hsa] at hsa'
            injection hsa' with hsa'
            subst hsa'
            exact absurd c1 (by omega)
          · intro ip' hip' hlt
            refine ⟨by simp [esp], ?_⟩
            intro sp' hsp' hlt2
            rw [esp] at hsp'
            injection hsp' with hsp'
            subst hsp'
            exact absurd c4 (by omega)
        · rw [if_neg c4] at h
          obtain ⟨wp, ewp, h⟩ := isSome_of_bind h
          obtain ⟨v6, e6, h⟩ := isSome_of_bind h
          obtain ⟨v8, e8, h⟩ := isSome_of_bind h
          obtain ⟨v9, e9, h⟩ := isSome_of_bind h
          obtain ⟨v10, e10, h⟩ := isSome_of_bind h
          obtain ⟨v7, e7, h⟩ := isSome_of_bind h
          obtain ⟨v11, e11, h⟩ := isSome_of_bind h
          clear h
          refine ⟨?_, ?_, ?_⟩
          · intro k hk
            simp only [uncondHueItems, List.mem_cons, List.not_mem_nil, or_false] at hk
            rcases hk with rfl | rfl | rfl | rfl | rfl | rfl | rfl | rfl <;>
              simp [hsa, hip, e6, e7, e8, e9, e10, e11]
          · intro sa' hsa' hlt
            rw [hsa] at hsa'
            injection hsa' with hsa'
            subst hsa'
            exact absurd c1 (by omega)
          · intro ip' hip' hlt
            refine ⟨by simp [esp], ?_⟩
            intro sp' hsp' hlt2
            simp [ewp]
    · rw [if_neg c1] at h
      obtain ⟨wa, ewa, h⟩ := isSome_of_bind h
      simp only [Option.some_bind] at h
      obtain ⟨ip, hip, h⟩ := isSome_of_bind h
      by_cases c3 : (1 : Int) ≤ ip
      · rw [if_pos c3] at h
        obtain ⟨v6, e6, h⟩ := isSome_of_bind h
        obtain ⟨v8, e8, h⟩ := isSome_of_bind h
        obtain ⟨v9, e9, h⟩ := isSome_of_bind h
        obtain ⟨v10, e10, h⟩ := isSome_of_bind h
        obtain ⟨v7, e7, h⟩ := isSome_of_bind h
        obtain ⟨v11, e11, h⟩ := isSome_of_bind h
        clear h
        refine ⟨?_, ?_, ?_⟩
        · intro k hk
          simp only [uncondHueItems, List.mem_cons, List.not_mem_nil, or_false] at hk
          rcases hk with rfl | rfl | rfl | rfl | rfl | rfl | rfl | rfl <;>
            simp [hsa, hip, e6, e7, e8, e9, e10, e11]
        · intro sa' hsa' hlt
          simp [ewa]
        · intro ip' hip' hlt
          rw [hip] at hip'
          injection hip' with hip'
          subst hip'
          exact absurd c3 (by omega)
      · rw [if_neg c3] at h
        obtain ⟨sp, esp, h⟩ := isSome_of_bind h
        by_cases c4 : (1 : Int) ≤ sp
        · rw [if_pos c4] at h
          obtain ⟨v6, e6, h⟩ := isSome_of_bind h
          obtain ⟨v8, e8, h⟩ := isSome_of_bind h
          obtain ⟨v9, e9, h⟩ := isSome_of_bind h
          obtain ⟨v10, e10, h⟩ := isSome_of_bind h
          obtain ⟨v7, e7, h⟩ := isSome_of_bind h
          obtain ⟨v11, e11, h⟩ := isSome_of_bind h
          clear h
          refine ⟨?_, ?_, ?_⟩
          · intro k hk
            simp only [uncondHueItems, List.mem_cons, List.not_mem_nil, or_false] at hk
            rcases hk with rfl | rfl | rfl | rfl | rfl | rfl | rfl | rfl <;>
              simp [hsa, hip, e6, e7, e8, e9, e10, e11]
          · intro sa' hsa' hlt
            simp [ewa]
          · intro ip' hip' hlt
            refine ⟨by simp [esp], ?_⟩
            intro sp' hsp' hlt2
            rw [esp] at hsp'
            injection hsp' with hsp'
            subst hsp'
            exact absurd c4 (by omega)
        · rw [if_neg c4] at h
          obtain ⟨wp, ewp, h⟩ := isSome_of_bind h
          obtain ⟨v6, e6, h⟩ := isSome_of_bind h
          obtain ⟨v8, e8, h⟩ := isSome_of_bind h
          obtain ⟨v9, e9, h⟩ := isSome_of_bind h
          obtain ⟨v10, e10, h⟩ := isSome_of_bind h
          obtain ⟨v7, e7, h⟩ := isSome_of_bind h
          obtain ⟨v11, e11, h⟩ := isSome_of_bind h
          clear h
          refine ⟨?_, ?_, ?_⟩
          · intro k hk
            simp only [uncondHueItems, List.mem_cons, List.not_mem_nil, or_false] at hk
            rcases hk with rfl | rfl | rfl | rfl | rfl | rfl | rfl | rfl <;>
              simp [hsa, hip, e6, e7, e8, e9, e10, e11]
          · intro sa' hsa' hlt
            simp [ewa]
          · intro ip' hip' hlt
            refine ⟨by simp [esp], ?_⟩
            intro sp' hsp' hlt2
            simp [ewp]
  · rintro ⟨h8, hwa, hpick⟩
    obtain ⟨sa, hsa⟩ := Option.isSome_iff_exists.mp (h8 "stone_axe" (by decide))
    obtain ⟨ip, hip⟩ := Option.isSome_iff_exists.mp (h8 "iron_pickaxe" (by decide))
    obtain ⟨v6, e6⟩ := Option.isSome_iff_exists.mp (h8 "plank" (by decide))
    obtain ⟨v7, e7⟩ := Option.isSome_iff_exists.mp (h8 "stick" (by decide))
    obtain ⟨v8, e8⟩ := Option.isSome_iff_exists.mp (h8 "bench" (by decide))
    obtain ⟨v9, e9⟩ := Option.isSome_iff_exists.mp (h8 "cobble" (by decide))
    obtain ⟨v10, e10⟩ := Option.isSome_iff_exists.mp (h8 "furnace" (by decide))
    obtain ⟨v11, e11⟩ := Option.isSome_iff_exists.mp (h8 "ingot" (by decide))
    by_cases c1 : (1 : Int) ≤ sa
    · by_cases c3 : (1 : Int) ≤ ip
      · simp only [getHue, Option.bind_eq_bind, Option.pure_def, Option.some_bind,
          hsa, hip, e6, e7, e8, e9, e10, e11, c1, c3, if_true, Option.isSome_some]
      · obtain ⟨hsp, hwp⟩ := hpick ip hip (by omega)
        obtain ⟨sp, esp⟩ := Option.isSome_iff_exists.mp hsp
        by_cases c4 : (1 : Int) ≤ sp
        · simp only [getHue, Option.bind_eq_bind, Option.pure_def, Option.some_bind,
            hsa, hip, esp, e6, e7, e8, e9, e10, e11, c1, c3, c4, if_true,
            if_false, Option.isSome_some]
        · obtain ⟨wp, ewp⟩ := Option.isSome_iff_exists.mp (hwp sp esp (by omega))
          simp only [getHue, Option.bind_eq_bind, Option.pure_def, Option.some_bind,
            hsa, hip, esp, ewp, e6, e7, e8, e9, e10, e11, c1, c3, c4, if_true,
            if_false, Option.isSome_some]
    · obtain ⟨wa, ewa⟩ := Option.isSome_iff_exists.mp (hwa sa hsa (by omega))
      by_cases c3 : (1 : Int) ≤ ip
      · simp only [getHue, Option.bind_eq_bind, Option.pure_def, Option.some_bind,
          hsa, ewa, hip, e6, e7, e8, e9, e10, e11, c1, c3, if_true, if_false,
          Option.isSome_some]
      · obtain ⟨hsp, hwp⟩ := hpick ip hip (by omega)
        obtain ⟨sp, esp⟩ := Option.isSome_iff_exists.mp hsp
        by_cases c4 : (1 : Int) ≤ sp
        · simp only [getHue, Option.bind_eq_bind, Option.pure_def, Option.some_bind,
            hsa, ewa, hip, esp, e6, e7, e8, e9, e10, e11, c1, c3, c4, if_true,
            if_false, Option.isSome_some]
        · obtain ⟨wp, ewp⟩ := Option.isSome_iff_exists.mp (hwp sp esp (by omega))
          simp only [getHue, Option.bind_eq_bind, Option.pure_def, Option.some_bind,
            hsa, ewa, hip, esp, ewp, e6, e7, e8, e9, e10, e11, c1, c3, c4,
            if_true, if_false, Option.isSome_some]

/-- Witness for C10's amended claim: the heuristic evaluates on the empty
inventory holding all eleven keys, whose lookups discharge every presence
condition of the characterization. -/
theorem heuristic_defined_iff_keys_witness :
    (getHue [] elevenZeroState).isSome = true :=
  (heuristic_defined_iff_keys [] elevenZeroState).mpr
    ⟨by decide,
     fun sa hsa _ => by decide,
     fun ip hip _ => ⟨by decide, fun sp hsp _ => by decide⟩⟩

/-! ### Lemmas about the search loop -/

theorem reconCore_ne_nil (prev : List (State × Node)) (node : Node) (fl : Nat) :
    reconCore prev node fl ≠ [] := by
  cases fl with
  | zero => simp [reconCore]
  | succ n =>
    rcases h : alook prev node.st with _ | p <;> simp [reconCore, h]

theorem reconCore_head (prev : List (State × Node)) (node : Node) (fl : Nat) :
    (reconCore prev node fl).head? = some ⟨node.cost, node.name, node.st⟩ := by
  cases fl with
  | zero => simp [reconCore]
  | succ n =>
    rcases h : alook prev node.st with _ | p <;> simp [reconCore, h]

theorem prevOK_relax {recipes : List RecipeF} {hue : State → HVal} {node : Node}
    {cfg : Config} {nb : String × State × Int}
    (h : PrevOK recipes cfg.prev) (hnb : nb ∈ graphF recipes node.st) :
    PrevOK recipes (relax hue node cfg nb).prev := by
  simp only [relax]
  split
  · intro q hq
    rcases aput_mem hq with h1 | h1
    · subst h1
      simp only [graphF, List.mem_map, List.mem_filter] at hnb
      obtain ⟨r, ⟨hr, hrc⟩, he⟩ := hnb
      exact ⟨r, hr, hrc, by rw [← he]⟩
    · exact h q h1
  · exact h

theorem prevOK_expand {recipes : List RecipeF} {hue : State → HVal} {node : Node} :
    ∀ (nbs : List (String × State × Int)) (cfg : Config),
      PrevOK recipes cfg.prev → (∀ nb ∈ nbs, nb ∈ graphF recipes node.st) →
      PrevOK recipes (nbs.foldl (relax hue node) cfg).prev := by
  intro nbs
  induction nbs with
  | nil => intro cfg h _; exact h
  | cons nb rest ih =>
    intro cfg h hm
    rw [List.foldl_cons]
    exact ih _ (prevOK_relax h (hm nb (List.mem_cons_self _ _)))
      (fun x hx => hm x (List.mem_cons_of_mem _ hx))

theorem prevOK_expandNode {recipes : List RecipeF} {hue : State → HVal}
    {node : Node} {cfg : Config} (h : PrevOK recipes cfg.prev) :
    PrevOK recipes (expandNode hue recipes node cfg).prev :=
  prevOK_expand _ _ h (fun _ hx => hx)

theorem searchLoop_found_inv (isGoal : State → Bool) (hue : State → HVal)
    (recipes : List RecipeF) :
    ∀ (fl : Nat) (cfg : Config) (p : List Step),
      PrevOK recipes cfg.prev →
      searchLoop isGoal hue recipes fl cfg = SearchResult.found p →
      ∃ prev node, PrevOK recipes prev ∧ isGoal node.st = true ∧
        p = reconstructPath prev node := by
  intro fl
  induction fl with
  | zero =>
    intro cfg p _ h
    simp [searchLoop] at h
  | succ n ih =>
    intro cfg p hprev h
    rw [searchLoop] at h
    rcases hpop : popMin cfg.heap with _ | ⟨node, heap'⟩
    · simp only [searchStep, hpop] at h
      exact ih cfg p hprev h
    · by_cases hg : isGoal node.st = true
      · simp only [searchStep, hpop, hg, if_true] at h
        refine ⟨cfg.prev, node, hprev, hg, ?_⟩
        simp only [SearchResult.found.injEq] at h
        exact h.symm
      · simp only [searchStep, hpop, hg, Bool.false_eq_true, if_false] at h
        exact ih _ p
          (@prevOK_expandNode recipes hue node
            { heap := heap', dist := cfg.dist, prev := cfg.prev } hprev) h

theorem searchLoop_found_chain {recipes : List RecipeF}
    {prev : List (State × Node)} (hprev : PrevOK recipes prev) :
    ∀ (fl : Nat) (node : Node),
      List.Chain' (fun a b => stepRel recipes b a) (reconCore prev node fl) := by
  intro fl
  induction fl with
  | zero => intro node; simp [reconCore]
  | succ n ih =>
    intro node
    rw [reconCore]
    rcases hl : alook prev node.st with _ | pn
    · simp
    · rw [List.chain'_cons']
      refine ⟨?_, ih pn⟩
      intro y hy
      rw [reconCore_head] at hy
      cases Option.some_inj.mp (Option.mem_def.mp hy)
      obtain ⟨r, hr, hrc, hre⟩ := hprev _ (alook_mem hl)
      exact ⟨r, hr, hrc, hre⟩

/-- C9: the search returns the empty list exactly on the `TimeExpired`
outcome (the budget, modelled as loop-iteration fuel, runs out before a
goal-satisfying node is popped); every `GoalFound` outcome carries a
non-empty path; and a start state already satisfying the goal returns in the
first iteration with the single zero-cost `Start` entry. -/
theorem search_outcomes (st : State) (g : State → Bool) (hue : State → HVal)
    (rs : List RecipeF) (limit : Nat) :
    (searchList st g limit hue rs = [] ↔
      search st g limit hue rs = SearchResult.timeExpired) ∧
    (∀ p, search st g limit hue rs = SearchResult.found p → p ≠ []) ∧
    (g st = true → 1 ≤ limit →
      searchList st g limit hue rs = [⟨0, "Start", st⟩]) := by
  have hfound : ∀ p, search st g limit hue rs = SearchResult.found p → p ≠ [] := by
    intro p hp
    obtain ⟨prev, node, _, _, hrec⟩ :=
      searchLoop_found_inv g hue rs limit (searchInit hue st) p
        (by intro q hq; simp [searchInit] at hq) hp
    rw [hrec, reconstructPath]
    simp [reconCore_ne_nil]
  refine ⟨⟨?_, ?_⟩, hfound, ?_⟩
  · intro he
    rcases hs : search st g limit hue rs with p | _
    · rw [searchList, hs] at he
      exact absurd he (hfound p hs)
    · rfl
  · intro ht
    rw [searchList, ht]
  · intro hg hl
    rcases limit with _ | n
    · omega
    rw [searchList, search, searchLoop, searchStep, searchInit]
    simp only [popMin, hg, if_true]
    rw [reconstructPath]
    simp [reconCore]

/-- Witness for C9: the immediate-goal case on a concrete one-item start
state. -/
theorem search_outcomes_witness :
    searchList [("w", 2)] (fun s => decide (s = [("w", 2)])) 4 zeroHue [] =
      [⟨0, "Start", [("w", 2)]⟩] :=
  (search_outcomes [("w", 2)] (fun s => decide (s = [("w", 2)])) zeroHue [] 4).2.2
    (by decide) (by decide)

/-- C1 amended: every path returned on a `GoalFound` outcome is non-empty,
its final state satisfies the goal predicate, and every adjacent pair of
recorded states is related by applying some applicable recipe of the list to
the earlier state; the recipe name recorded in a step, however, can be stale
when the search later found a cheaper route to that step's state (see the
counterexample), so replaying the named recipes need not reproduce the
recorded states. -/
theorem search_path_amended (st : State) (g : State → Bool) (hue : State → HVal)
    (rs : List RecipeF) (limit : Nat) (p : List Step)
    (h : search st g limit hue rs = SearchResult.found p) :
    p ≠ [] ∧ (∃ e, p.getLast? = some e ∧ g e.st = true) ∧
      List.Chain' (stepRel rs) p := by
  obtain ⟨prev, node, hprev, hg, hrec⟩ :=
    searchLoop_found_inv g hue rs limit (searchInit hue st) p
      (by intro q hq; simp [searchInit] at hq) h
  subst hrec
  rw [reconstructPath]
  refine ⟨by simp [reconCore_ne_nil], ⟨⟨node.cost, node.name, node.st⟩, ?_, hg⟩, ?_⟩
  · rw [List.getLast?_reverse, reconCore_head]
  · rw [List.chain'_reverse]
    exact searchLoop_found_chain hprev _ node

/-- Witness for C1's amended claim: a concrete immediate-goal run. -/
theorem search_path_amended_witness :
    ([⟨0, "Start", [("w", 2)]⟩] : List Step) ≠ [] ∧
      (∃ e, ([⟨0, "Start", [("w", 2)]⟩] : List Step).getLast? = some e ∧
        (fun s => decide (s = [("w", 2)])) e.st = true) ∧
      List.Chain' (stepRel noopRecipes) [⟨0, "Start", [("w", 2)]⟩] :=
  search_path_amended [("w", 2)] (fun s => decide (s = [("w", 2)])) zeroHue
    noopRecipes 4 [⟨0, "Start", [("w", 2)]⟩] (by decide)

/-- C1 counterexample: in the stale-name scenario the search pops the stale
goal tuple carrying recipe name `A` (name tie-break under the infinite
priority) while the predecessor map records the cheaper route through `R2`
and `B`; the returned path pairs the state reached via `B` with the name `A`,
so replaying each step's named recipe effect from the initial state does not
reproduce the recorded states. -/
theorem search_path_replay_fails :
    search (pSt 0) cxGoal 10 cxHue cxRecipes = SearchResult.found cxPath ∧
      pathReplayValid cxRecipes (pSt 0) cxGoal cxPath = false := by
  exact ⟨rfl, rfl⟩

end CraftPlanner
